import Mathlib

/-!
Shallow embedding of the PSZ private-set-intersection protocol layer
(`src/psi/psz.rs`). Tokens (`scuttlebutt::Block`, 128-bit) are naturals with
bitwise XOR; 512-bit OPRF outputs (`Block512`) are lists of bytes, with
`prefix(k)` embedded as `List.take k`. The wire activity of the sender is a list
of events (byte records and flushes); the reading phase of the receiver consumes
a byte list. Collaborator code that is not part of the sources of this repository
(the cuckoo hash module, the mask sizing, the OPRF, the coin toss) is
modelled from the specification and marked as such.
-/

namespace Psz

/-- A 128-bit token (`scuttlebutt::Block`), modelled as a natural number;
token XOR is bitwise `Nat.xor`. -/
abbrev Token := Nat

/-- A 512-bit OPRF output (`scuttlebutt::Block512`), modelled as its list of
bytes; `w.prefix(k)` is `List.take k w`. -/
abbrev W := List Nat

/-- A protocol message (`Vec<u8>`). -/
abbrev Msg := List Nat

/-- Bytewise XOR of two byte strings over their common length
(`scutils::xor_inplace` / `xor_inplace_n`). -/
def xorBytes (a b : List Nat) : List Nat :=
  List.zipWith (fun x y => x ^^^ y) a b

/-- Error kinds surfaced by the PSI layer (spec section 7). -/
inductive PsiError
  | Io
  | CoinTossMismatch
  | BadInputSize
  | CuckooFailed
  | OprfFailure
deriving DecidableEq

/-- Token encoding of a hash-function index: `Block::from(i as u128)`. -/
def hidxTok (i : Nat) : Token := i

/-- Modelled from the spec: `CuckooHash::bin` (the cuckoo module is not under
src/). Spec section 4.4: `bin(t, i, m)` takes the low bits of the i-th 32-bit
lane of the token, reduced mod m. -/
def binOf (t : Token) (i m : Nat) : Nat :=
  (t >>> (32 * i)) % 2 ^ 32 % m

/-- Fuel-driven floor base-2 logarithm: with fuel at least n the recursion
terminates exactly as repeated halving does. -/
def log2Aux : Nat → Nat → Nat
  | 0, _ => 0
  | fuel + 1, n => if 2 ≤ n then log2Aux fuel (n / 2) + 1 else 0

/-- Floor base-2 logarithm, structurally recursive on a fuel argument. -/
def log2floor (n : Nat) : Nat := log2Aux n n

/-- Modelled from the spec: `compute_masksize` (the cuckoo module is not
under src/). Spec section 4.5: the mask width is the ceiling of
(2 * log2 n + lambda) / 8 bytes with lambda = 40, and n = 0 fails with
`BadInputSize`. -/
def compute_masksize (n : Nat) : Except PsiError Nat :=
  if n = 0 then Except.error PsiError.BadInputSize
  else Except.ok ((2 * log2floor n + 40 + 7) / 8)

/-- One event of the sender wire activity: a written byte record, or a
writer flush. -/
inductive WireEvent
  | bytes (bs : List Nat)
  | flush
deriving DecidableEq

/-- One record of the sender bin phase, as the code computes it (`psz.rs`
lines 69-80): encode `x ^ h_i` through the OPRF, XOR the first masksize bytes
with the first masksize bytes of `seeds[bin]` in place, and take the first
masksize bytes for writing. -/
def binRecord (encode : Token → W) (seeds : List W) (σ nbins i : Nat)
    (x : Token) : List Nat :=
  let encoded := encode (x ^^^ hidxTok i)
  xorBytes (encoded.take σ) ((seeds.getD (binOf x i nbins) []).take σ)

/-- One bin-phase stream (`psz.rs` lines 67-83, the body of the loop over the
hash-function index `i`): one record per token of the already-shuffled input
vector, then a flush. -/
def binRound (encode : Token → W) (seeds : List W) (σ nbins i : Nat)
    (inputs : List Token) : List WireEvent :=
  inputs.map (fun x => WireEvent.bytes (binRecord encode seeds σ nbins i x))
    ++ [WireEvent.flush]

/-- One record of the sender stash phase, as the code computes it (`psz.rs`
lines 98-104): a zeroed masksize-byte buffer, XORed in place with the encoded
first masksize bytes of the encoded value, then with the first masksize
bytes of `seeds[nbins + j]`. -/
def stashRecord (seeds : List W) (σ nbins j : Nat) (e : W) : List Nat :=
  xorBytes (xorBytes (List.replicate σ 0) (e.take σ))
    ((seeds.getD (nbins + j) []).take σ)

/-- The stash-phase loop (`psz.rs` lines 96-105): for each stash slot the
encoded vector is shuffled afresh and one record per element is written.
`shuffleW j` stands for the RNG-driven shuffle performed for slot `j`. -/
def stashRounds (seeds : List W) (σ nbins : Nat)
    (shuffleW : Nat → List W → List W) :
    Nat → Nat → List W → List WireEvent
  | _, 0, _ => []
  | j, r + 1, encs =>
    let shuffled := shuffleW j encs
    shuffled.map (fun e => WireEvent.bytes (stashRecord seeds σ nbins j e))
      ++ stashRounds seeds σ nbins shuffleW (j + 1) r shuffled

/-- `Sender::send` after the coin toss, input compression, mask sizing and
OPRF setup (`psz.rs` lines 64-108), as the sequence of wire events it
produces. `inputs` is the compressed token vector; `encode` is the OPRF
encoding; `seeds` are the OPRF keys; `shuffleT k` (resp. `shuffleW j`) gives
the result of the RNG-driven shuffle of the token (resp. encoded) vector at
the k-th (resp. j-th) call site. The stash phase runs only when the stash
size is positive and ends in a single flush. -/
def senderSend (encode : Token → W) (seeds : List W) (σ nbins stashsize : Nat)
    (shuffleT : Nat → List Token → List Token)
    (shuffleW : Nat → List W → List W)
    (inputs : List Token) : List WireEvent :=
  let in1 := shuffleT 0 inputs
  let in2 := shuffleT 1 in1
  let in3 := shuffleT 2 in2
  binRound encode seeds σ nbins 0 in1
    ++ binRound encode seeds σ nbins 1 in2
    ++ binRound encode seeds σ nbins 2 in3
    ++ (if 0 < stashsize then
          stashRounds seeds σ nbins shuffleW 0 stashsize
            (in3.map (fun x => encode x))
            ++ [WireEvent.flush]
        else [])

/-- The bin-phase stream as the spec describes it (spec section 4.7 step 5):
for each token `x` of the permuted vector, the σ-byte value
`(encode(x ^ h_i) ^ seeds[bin(x, i, m)]).prefix(σ)`, then a flush. -/
def specBinStream (encode : Token → W) (seeds : List W) (σ nbins i : Nat)
    (perm : List Token) : List WireEvent :=
  perm.map (fun x =>
      WireEvent.bytes
        ((xorBytes (encode (x ^^^ hidxTok i))
            (seeds.getD (binOf x i nbins) [])).take σ))
    ++ [WireEvent.flush]

/-- The stash stream for slot `j` as the spec describes it (spec section 4.7
step 6): for each element of the shuffled encoded vector, the σ-byte value
`(enc ^ seeds[m + j]).prefix(σ)`. -/
def specStashStream (seeds : List W) (σ nbins j : Nat)
    (encs : List W) : List WireEvent :=
  encs.map (fun e =>
    WireEvent.bytes ((xorBytes e (seeds.getD (nbins + j) [])).take σ))

/-- The whole stash phase as the spec describes it: successive fresh shuffles
of the pre-encoded vector, one stream per stash slot. -/
def specStashPhase (seeds : List W) (σ nbins : Nat)
    (shuffleW : Nat → List W → List W) :
    Nat → Nat → List W → List WireEvent
  | _, 0, _ => []
  | j, r + 1, encs =>
    let shuffled := shuffleW j encs
    specStashStream seeds σ nbins j shuffled
      ++ specStashPhase seeds σ nbins shuffleW (j + 1) r shuffled

/-- Number of payload bytes in a trace of wire events (flushes carry none). -/
def payloadBytes : List WireEvent → Nat
  | [] => 0
  | WireEvent.bytes bs :: rest => bs.length + payloadBytes rest
  | WireEvent.flush :: rest => payloadBytes rest

theorem xorBytes_take (a b : List Nat) (n : Nat) :
    (xorBytes a b).take n = xorBytes (a.take n) (b.take n) := by
  induction a generalizing b n with
  | nil => simp [xorBytes]
  | cons x xs ih =>
    cases b with
    | nil => simp [xorBytes]
    | cons y ys =>
      cases n with
      | zero => simp [xorBytes]
      | succ m =>
        simp only [xorBytes, List.zipWith_cons_cons, List.take_succ_cons]
        exact congrArg (fun l => (x ^^^ y) :: l) (ih ys m)

theorem xorBytes_length (a b : List Nat) :
    (xorBytes a b).length = min a.length b.length := by
  simp [xorBytes]

theorem binRecord_eq_spec (encode : Token → W) (seeds : List W)
    (σ nbins i : Nat) (x : Token) :
    binRecord encode seeds σ nbins i x =
      (xorBytes (encode (x ^^^ hidxTok i))
        (seeds.getD (binOf x i nbins) [])).take σ := by
  rw [binRecord, xorBytes_take]

theorem binRound_eq_spec (encode : Token → W) (seeds : List W)
    (σ nbins i : Nat) (perm : List Token) :
    binRound encode seeds σ nbins i perm =
      specBinStream encode seeds σ nbins i perm := by
  unfold binRound specBinStream
  refine congrArg (fun l => l ++ [WireEvent.flush]) ?_
  exact List.map_congr_left (fun x _ =>
    congrArg WireEvent.bytes (binRecord_eq_spec encode seeds σ nbins i x))

theorem xorBytes_zero_left (l : List Nat) :
    xorBytes (List.replicate l.length 0) l = l := by
  induction l with
  | nil => rfl
  | cons x xs ih =>
    simp only [List.length_cons, List.replicate_succ, xorBytes,
      List.zipWith_cons_cons]
    rw [Nat.zero_xor]
    exact congrArg (fun t => x :: t) ih

theorem stashRecord_eq_spec (seeds : List W) (σ nbins j : Nat) (e : W)
    (he : σ ≤ e.length) :
    stashRecord seeds σ nbins j e =
      (xorBytes e (seeds.getD (nbins + j) [])).take σ := by
  have hlen : (e.take σ).length = σ := by
    simp [List.length_take, Nat.min_eq_left he]
  have hz : xorBytes (List.replicate σ 0) (e.take σ) = e.take σ := by
    have := xorBytes_zero_left (e.take σ)
    rwa [hlen] at this
  rw [stashRecord, hz, xorBytes_take]

theorem stashRounds_eq_spec (seeds : List W) (σ nbins : Nat)
    (shuffleW : Nat → List W → List W)
    (hshuf : ∀ j l, ∀ e ∈ shuffleW j l, e ∈ l) :
    ∀ r j encs, (∀ e ∈ encs, σ ≤ List.length e) →
      stashRounds seeds σ nbins shuffleW j r encs =
        specStashPhase seeds σ nbins shuffleW j r encs := by
  intro r
  induction r with
  | zero => intro j encs _; rfl
  | succ k ih =>
    intro j encs hlen
    have hlen2 : ∀ e ∈ shuffleW j encs, σ ≤ List.length e :=
      fun e he => hlen e (hshuf j encs e he)
    simp only [stashRounds, specStashPhase]
    refine congrArg₂ (fun a b => a ++ b) ?_ (ih (j + 1) (shuffleW j encs) hlen2)
    exact List.map_congr_left (fun e he =>
      congrArg WireEvent.bytes
        (stashRecord_eq_spec seeds σ nbins j e (hlen2 e he)))

/-- C2: in the bin phase, for each hash-function index i in \x7b0,1,2\x7d and
each token x of the shuffled compressed input vector, `Sender::send` writes
exactly the σ-byte value `(encode(x ^ h_i) ^ seeds[bin(x, i, m)]).prefix(σ)`,
flushing after each hash-function stream; each such record is σ bytes long
when the OPRF outputs are 64-byte blocks, σ ≤ 64, the seed vector has an
entry per bin and stash slot, and the bin count is positive. -/
theorem sender_bin_phase_matches_spec (encode : Token → W) (seeds : List W)
    (σ nbins stashsize : Nat)
    (shuffleT : Nat → List Token → List Token)
    (shuffleW : Nat → List W → List W) (inputs : List Token)
    (hσ : σ ≤ 64) (hnb : 0 < nbins)
    (henc : ∀ x, (encode x).length = 64)
    (hseeds : ∀ w ∈ seeds, List.length w = 64)
    (hslen : seeds.length = nbins + stashsize) :
    (∃ rest,
      senderSend encode seeds σ nbins stashsize shuffleT shuffleW inputs =
        specBinStream encode seeds σ nbins 0 (shuffleT 0 inputs)
          ++ specBinStream encode seeds σ nbins 1
              (shuffleT 1 (shuffleT 0 inputs))
          ++ specBinStream encode seeds σ nbins 2
              (shuffleT 2 (shuffleT 1 (shuffleT 0 inputs)))
          ++ rest)
    ∧ ∀ i x, i < 3 →
        ((xorBytes (encode (x ^^^ hidxTok i))
          (seeds.getD (binOf x i nbins) [])).take σ).length = σ := by
  constructor
  · refine ⟨if 0 < stashsize then
        stashRounds seeds σ nbins shuffleW 0 stashsize
          ((shuffleT 2 (shuffleT 1 (shuffleT 0 inputs))).map
            (fun x => encode x))
          ++ [WireEvent.flush]
      else [], ?_⟩
    rw [senderSend, binRound_eq_spec, binRound_eq_spec, binRound_eq_spec]
  · intro i x _
    have hbin : binOf x i nbins < seeds.length := by
      rw [hslen]
      exact lt_of_lt_of_le (Nat.mod_lt _ hnb) (Nat.le_add_right _ _)
    have hsd : (seeds.getD (binOf x i nbins) []).length = 64 := by
      rw [List.getD_eq_getElem _ _ hbin]
      exact hseeds _ (List.getElem_mem hbin)
    rw [List.length_take, xorBytes_length, henc, hsd]
    omega

/-- C3: when the stash size s is positive, `Sender::send` pre-computes
`encode(x)` for every token of the (thrice-shuffled) compressed input vector
with no hash-index XOR, then for each stash slot j emits, over a fresh
shuffle of that encoded vector, the σ-byte values
`(enc ^ seeds[m + j]).prefix(σ)`, and flushes exactly once at the end of the
whole stash phase; when s = 0 the trace ends with the third bin stream. -/
theorem sender_stash_phase_matches_spec (encode : Token → W) (seeds : List W)
    (σ nbins stashsize : Nat)
    (shuffleT : Nat → List Token → List Token)
    (shuffleW : Nat → List W → List W) (inputs : List Token)
    (hσ : σ ≤ 64)
    (henc : ∀ x, (encode x).length = 64)
    (hseeds : ∀ w ∈ seeds, List.length w = 64)
    (hslen : seeds.length = nbins + stashsize)
    (hshuf : ∀ j l, ∀ e ∈ shuffleW j l, e ∈ l) :
    (0 < stashsize →
      senderSend encode seeds σ nbins stashsize shuffleT shuffleW inputs =
        binRound encode seeds σ nbins 0 (shuffleT 0 inputs)
          ++ binRound encode seeds σ nbins 1 (shuffleT 1 (shuffleT 0 inputs))
          ++ binRound encode seeds σ nbins 2
              (shuffleT 2 (shuffleT 1 (shuffleT 0 inputs)))
          ++ (specStashPhase seeds σ nbins shuffleW 0 stashsize
                ((shuffleT 2 (shuffleT 1 (shuffleT 0 inputs))).map
                  (fun x => encode x))
              ++ [WireEvent.flush]))
    ∧ (stashsize = 0 →
        senderSend encode seeds σ nbins stashsize shuffleT shuffleW inputs =
          binRound encode seeds σ nbins 0 (shuffleT 0 inputs)
            ++ binRound encode seeds σ nbins 1 (shuffleT 1 (shuffleT 0 inputs))
            ++ binRound encode seeds σ nbins 2
                (shuffleT 2 (shuffleT 1 (shuffleT 0 inputs)))
            ++ [])
    ∧ (∀ j, j < stashsize → ∀ e : W, List.length e = 64 →
        ((xorBytes e (seeds.getD (nbins + j) [])).take σ).length = σ) := by
  refine ⟨?_, ?_, ?_⟩
  · intro hs
    rw [senderSend, if_pos hs,
      stashRounds_eq_spec seeds σ nbins shuffleW hshuf stashsize 0
        ((shuffleT 2 (shuffleT 1 (shuffleT 0 inputs))).map (fun x => encode x))
        ?_]
    intro e he
    obtain ⟨x, _, hx⟩ := List.mem_map.mp he
    rw [← hx, henc]
    exact hσ
  · intro hs
    rw [senderSend, hs, if_neg (by omega)]
  · intro j hj e he
    have hidx : nbins + j < seeds.length := by omega
    have hsd : (seeds.getD (nbins + j) []).length = 64 := by
      rw [List.getD_eq_getElem _ _ hidx]
      exact hseeds _ (List.getElem_mem hidx)
    rw [List.length_take, xorBytes_length, he, hsd]
    omega

theorem payloadBytes_append (a b : List WireEvent) :
    payloadBytes (a ++ b) = payloadBytes a + payloadBytes b := by
  induction a with
  | nil => simp [payloadBytes]
  | cons ev rest ih =>
    cases ev with
    | bytes bs => simp [payloadBytes, ih]; omega
    | flush => simp [payloadBytes, ih]

theorem payloadBytes_map_bytes {α : Type} (f : α → List Nat) (l : List α)
    (σ : Nat) (hf : ∀ x ∈ l, (f x).length = σ) :
    payloadBytes (l.map (fun x => WireEvent.bytes (f x))) = l.length * σ := by
  induction l with
  | nil => simp [payloadBytes]
  | cons x xs ih =>
    simp only [List.map_cons, payloadBytes, List.length_cons]
    rw [hf x (List.mem_cons_self x xs),
      ih (fun y hy => hf y (List.mem_cons_of_mem x hy))]
    ring

theorem binRecord_length (encode : Token → W) (seeds : List W)
    (σ nbins i : Nat) (x : Token)
    (hσ : σ ≤ 64) (hnb : 0 < nbins)
    (henc : ∀ y, (encode y).length = 64)
    (hseeds : ∀ w ∈ seeds, List.length w = 64)
    (hslen : nbins ≤ seeds.length) :
    (binRecord encode seeds σ nbins i x).length = σ := by
  have hbin : binOf x i nbins < seeds.length :=
    lt_of_lt_of_le (Nat.mod_lt _ hnb) hslen
  have hsd : (seeds.getD (binOf x i nbins) []).length = 64 := by
    rw [List.getD_eq_getElem _ _ hbin]
    exact hseeds _ (List.getElem_mem hbin)
  rw [binRecord]
  rw [xorBytes_length, List.length_take, List.length_take, henc, hsd]
  omega

theorem stashRecord_length (seeds : List W) (σ nbins j : Nat) (e : W)
    (hσe : σ ≤ e.length)
    (hσs : σ ≤ (seeds.getD (nbins + j) []).length) :
    (stashRecord seeds σ nbins j e).length = σ := by
  rw [stashRecord, xorBytes_length, xorBytes_length, List.length_replicate,
    List.length_take, List.length_take]
  omega

theorem payloadBytes_stashRounds (seeds : List W) (σ nbins : Nat)
    (shuffleW : Nat → List W → List W)
    (hperm : ∀ j l, (shuffleW j l).Perm l)
    (hseeds : ∀ w ∈ seeds, List.length w = 64) (hσ : σ ≤ 64) :
    ∀ r j encs, (∀ k, k < r → nbins + (j + k) < seeds.length) →
      (∀ e ∈ encs, List.length e = 64) →
      payloadBytes (stashRounds seeds σ nbins shuffleW j r encs) =
        r * encs.length * σ := by
  intro r
  induction r with
  | zero => intro j encs _ _; simp [stashRounds, payloadBytes]
  | succ k ih =>
    intro j encs hrange hlen
    have hmem : ∀ e ∈ shuffleW j encs, List.length e = 64 :=
      fun e he => hlen e ((hperm j encs).mem_iff.mp he)
    have hlenEq : (shuffleW j encs).length = encs.length :=
      (hperm j encs).length_eq
    have hj : nbins + j < seeds.length := by
      have := hrange 0 (Nat.succ_pos k)
      omega
    have hsd : σ ≤ (seeds.getD (nbins + j) []).length := by
      rw [List.getD_eq_getElem _ _ hj]
      rw [hseeds _ (List.getElem_mem hj)]
      exact hσ
    simp only [stashRounds]
    rw [payloadBytes_append,
      payloadBytes_map_bytes _ _ σ (fun e he =>
        stashRecord_length seeds σ nbins j e (by rw [hmem e he]; exact hσ) hsd),
      ih (j + 1) (shuffleW j encs)
        (fun t ht => by have := hrange (t + 1) (by omega); omega) hmem,
      hlenEq]
    ring

/-- C8: the total number of payload bytes `Sender::send` writes at the PSZ
layer is exactly 3 * n * σ + s * n * σ where n is the sender input count and
σ = compute_masksize(n): n records of σ bytes per bin stream and per stash
stream. The count depends only on n, s, m and σ — the receiver set Y does
not occur in the sender emission at all — so two runs differing only in Y
(same m, s) write identical byte counts. -/
theorem sender_payload_byte_count (encode : Token → W) (seeds : List W)
    (σ nbins stashsize : Nat)
    (shuffleT : Nat → List Token → List Token)
    (shuffleW : Nat → List W → List W) (inputs : List Token)
    (hmask : compute_masksize inputs.length = Except.ok σ)
    (hσ : σ ≤ 64) (hnb : 0 < nbins)
    (henc : ∀ x, (encode x).length = 64)
    (hseeds : ∀ w ∈ seeds, List.length w = 64)
    (hslen : seeds.length = nbins + stashsize)
    (hshufT : ∀ k l, (shuffleT k l).Perm l)
    (hshufW : ∀ j l, (shuffleW j l).Perm l) :
    payloadBytes
        (senderSend encode seeds σ nbins stashsize shuffleT shuffleW inputs) =
      3 * inputs.length * σ + stashsize * inputs.length * σ := by
  have hlen1 : (shuffleT 0 inputs).length = inputs.length :=
    (hshufT 0 inputs).length_eq
  have hlen2 : (shuffleT 1 (shuffleT 0 inputs)).length = inputs.length := by
    rw [(hshufT 1 _).length_eq, hlen1]
  have hlen3 :
      (shuffleT 2 (shuffleT 1 (shuffleT 0 inputs))).length = inputs.length := by
    rw [(hshufT 2 _).length_eq, hlen2]
  have hround : ∀ i perm, perm.length = inputs.length →
      payloadBytes (binRound encode seeds σ nbins i perm) =
        inputs.length * σ := by
    intro i perm hp
    rw [binRound, payloadBytes_append,
      payloadBytes_map_bytes _ _ σ (fun x _ =>
        binRecord_length encode seeds σ nbins i x hσ hnb henc hseeds
          (by omega)), hp]
    simp [payloadBytes]
  rw [senderSend, payloadBytes_append, payloadBytes_append,
    payloadBytes_append, hround 0 _ hlen1, hround 1 _ hlen2, hround 2 _ hlen3]
  by_cases hs : 0 < stashsize
  · rw [if_pos hs, payloadBytes_append,
      payloadBytes_stashRounds seeds σ nbins shuffleW hshufW hseeds hσ
        stashsize 0 _ (fun k hk => by omega)
        (fun e he => by
          obtain ⟨x, _, hx⟩ := List.mem_map.mp he
          rw [← hx]; exact henc x)]
    simp only [List.length_map, hlen3, payloadBytes]
    ring
  · rw [if_neg hs]
    have hz : stashsize = 0 := by omega
    simp [payloadBytes, hz]
    ring

/-- A cuckoo-table item (spec section 3): the compressed entry token, the
index of the original input, and the placing hash function (`some i` for a
bin resident, `none` for a stash resident). -/
structure CuckooItem where
  entry : Token
  input_index : Nat
  hash_index : Option Nat
deriving DecidableEq

/-- Modelled from the spec: the receiver-side cuckoo table (the cuckoo
module is not under src/). Spec sections 3 and 4.4: `nbins + stashsize`
optional slots in positional order, bins first, then the stash; `items()`
yields exactly the slots. -/
structure CuckooTable where
  nbins : Nat
  stashsize : Nat
  slots : List (Option CuckooItem)
deriving DecidableEq

/-- Modelled from the spec: invariants of a cuckoo table built over n tokens
(spec section 3): the slot count is `nbins + stashsize`; every occupied slot
records an input index below n; exactly n slots are occupied; bin slots are
placed by a hash function with index below 3, stash slots carry no hash
index. -/
def CuckooTable.WF (tbl : CuckooTable) (n : Nat) : Prop :=
  tbl.slots.length = tbl.nbins + tbl.stashsize
  ∧ (∀ o ∈ tbl.slots, ∀ it : CuckooItem, o = some it → it.input_index < n)
  ∧ tbl.slots.countP (fun o => o.isSome) = n
  ∧ (∀ k, k < tbl.slots.length → ∀ it : CuckooItem,
      tbl.slots.getD k none = some it →
      (k < tbl.nbins → ∃ i, it.hash_index = some i ∧ i < 3)
      ∧ (tbl.nbins ≤ k → it.hash_index = none))

instance (tbl : CuckooTable) (n : Nat) : Decidable (tbl.WF n) := by
  unfold CuckooTable.WF
  infer_instance

/-- The vector of the three hash-index tokens `Receiver::receive` builds
(`psz.rs` lines 147-149). -/
def hindices : List Token :=
  (List.range 3).map (fun i => hidxTok i)

/-- The OPRF query vector `Receiver::receive` builds (`psz.rs` lines
156-177): per slot, `entry ^ hindices[hidx]` for a bin item, `entry` for a
stash item, and the default (all-zero) block for an empty slot. -/
def oprfQueries (tbl : CuckooTable) : List Token :=
  tbl.slots.map (fun optItem =>
    match optItem with
    | some item =>
      match item.hash_index with
      | some hidx => item.entry ^^^ hindices.getD hidx 0
      | none => item.entry
    | none => 0)

/-- Embedding of `read_exact` into a fresh σ-byte buffer: consume exactly σ
bytes of the stream, or fail with an I/O error on a short read. -/
def read_exact (σ : Nat) (stream : List Nat) :
    Except PsiError (List Nat × List Nat) :=
  if σ ≤ stream.length then Except.ok (stream.take σ, stream.drop σ)
  else Except.error PsiError.Io

/-- One hash-set-filling loop of `Receiver::receive` (`psz.rs` lines
190-196 and 198-204): read `count` σ-byte records with `read_exact`,
inserting each into the accumulating set. -/
def readSet (σ : Nat) :
    Nat → List Nat → List (List Nat) →
      Except PsiError (List (List Nat) × List Nat)
  | 0, stream, acc => Except.ok (acc, stream)
  | count + 1, stream, acc =>
    match read_exact σ stream with
    | Except.error e => Except.error e
    | Except.ok (buf, rest) => readSet σ count rest (List.insert buf acc)

/-- Reading a sequence of `count` hash-sets of `n` σ-byte records each
(`psz.rs` lines 190-204: the loop over the 3 bin sets, then the loop over
the stash sets). -/
def readSets (σ n : Nat) :
    Nat → List Nat →
      Except PsiError (List (List (List Nat)) × List Nat)
  | 0, stream => Except.ok ([], stream)
  | count + 1, stream =>
    match readSet σ n stream [] with
    | Except.error e => Except.error e
    | Except.ok (h, rest) =>
      match readSets σ n count rest with
      | Except.error e => Except.error e
      | Except.ok (sets, rest2) => Except.ok (h :: sets, rest2)

/-- The intersection loop of `Receiver::receive` (`psz.rs` lines 208-225):
walk the cuckoo slots zipped with the OPRF outputs, with the running
positional index; on a bin item test the σ-byte output against the
hash-set of its hash index, on a stash item against the stash set at
`index - nbins`, and on a hit push the original input at `input_index`. -/
def intersectLoop (nbins σ : Nat) (hsets ssets : List (List (List Nat)))
    (Y : List Msg) :
    Nat → List (Option CuckooItem × W) → List Msg
  | _, [] => []
  | i, (optItem, output) :: rest =>
    match optItem with
    | none => intersectLoop nbins σ hsets ssets Y (i + 1) rest
    | some item =>
      match item.hash_index with
      | some hidx =>
        if output.take σ ∈ hsets.getD hidx [] then
          Y.getD item.input_index [] ::
            intersectLoop nbins σ hsets ssets Y (i + 1) rest
        else intersectLoop nbins σ hsets ssets Y (i + 1) rest
      | none =>
        if output.take σ ∈ ssets.getD (i - nbins) [] then
          Y.getD item.input_index [] ::
            intersectLoop nbins σ hsets ssets Y (i + 1) rest
        else intersectLoop nbins σ hsets ssets Y (i + 1) rest

/-- `Receiver::receive` from the point the OPRF outputs are in hand
(`psz.rs` lines 181-226): read the 3 bin sets, then `stashsize` stash sets,
each of `n` σ-byte records, and only then walk the cuckoo slots zipped with
the OPRF outputs to assemble the intersection. The `?` early return of Rust is
embedded as `Except.bind`. -/
def receiverPostOprf (tbl : CuckooTable) (outputs : List W) (σ n : Nat)
    (Y : List Msg) (stream : List Nat) : Except PsiError (List Msg) :=
  Except.bind (readSets σ n 3 stream) (fun hr =>
    Except.bind (readSets σ n tbl.stashsize hr.2) (fun sr =>
      Except.ok (intersectLoop tbl.nbins σ hr.1 sr.1 Y 0
        (tbl.slots.zip outputs))))

/-- `Receiver::receive` end to end (`psz.rs` lines 124-227). The coin toss,
the input compression plus cuckoo construction, and the OPRF are fallible
collaborators outside the sources of this repository; they enter as
`Except`-valued oracles. The rest is the sequencing of the code itself (`?` as
`Except.bind`): compute the mask size from the input count of the receiver itself,
run the OPRF on the query vector, then read all sets and assemble the
intersection. -/
def receiverReceive (coin : Except PsiError Token)
    (mkTable : Token → Except PsiError CuckooTable)
    (oprf : List Token → Except PsiError (List W))
    (Y : List Msg) (stream : List Nat) : Except PsiError (List Msg) :=
  Except.bind coin (fun key =>
    Except.bind (mkTable key) (fun tbl =>
      Except.bind (compute_masksize Y.length) (fun σ =>
        Except.bind (oprf (oprfQueries tbl)) (fun outputs =>
          receiverPostOprf tbl outputs σ Y.length Y stream))))

theorem except_bind_ok_inv {α β : Type} {m : Except PsiError α}
    {f : α → Except PsiError β} {b : β}
    (h : Except.bind m f = Except.ok b) :
    ∃ a, m = Except.ok a ∧ f a = Except.ok b := by
  cases m with
  | error e => exact Except.noConfusion h
  | ok a => exact ⟨a, rfl, h⟩

/-- The list of the `count` successive σ-byte records at the head of a
stream. -/
def chunkRecords (σ : Nat) : Nat → List Nat → List (List Nat)
  | 0, _ => []
  | count + 1, stream => stream.take σ :: chunkRecords σ count (stream.drop σ)

/-- The set underlying a list of records, inserted left to right into an
accumulator, as the reading loop of the receiver does. -/
def setOfRecords (records : List (List Nat)) : List (List Nat) :=
  records.foldl (fun s b => List.insert b s) []

theorem readSet_ok (σ : Nat) :
    ∀ count stream acc, count * σ ≤ stream.length →
      readSet σ count stream acc =
        Except.ok
          ((chunkRecords σ count stream).foldl (fun s b => List.insert b s) acc,
            stream.drop (count * σ)) := by
  intro count
  induction count with
  | zero => intro stream acc _; simp [readSet, chunkRecords]
  | succ k ih =>
    intro stream acc h
    have hsucc : (k + 1) * σ = k * σ + σ := by ring
    have hσ : σ ≤ stream.length := by omega
    have hrec : k * σ ≤ (stream.drop σ).length := by
      rw [List.length_drop]
      omega
    simp only [readSet, read_exact, if_pos hσ]
    rw [ih (stream.drop σ) _ hrec, List.drop_drop, chunkRecords]
    simp only [List.foldl_cons]
    have : σ + k * σ = (k + 1) * σ := by ring
    rw [this]

theorem readSet_err (σ : Nat) :
    ∀ count stream acc, stream.length < count * σ →
      readSet σ count stream acc = Except.error PsiError.Io := by
  intro count
  induction count with
  | zero => intro stream acc h; simp at h
  | succ k ih =>
    intro stream acc h
    have hsucc : (k + 1) * σ = k * σ + σ := by ring
    by_cases hσ : σ ≤ stream.length
    · simp only [readSet, read_exact, if_pos hσ]
      refine ih (stream.drop σ) _ ?_
      rw [List.length_drop]
      omega
    · simp only [readSet, read_exact, if_neg hσ]

theorem readSet_consumed (σ : Nat) :
    ∀ count stream acc hset rest,
      readSet σ count stream acc = Except.ok (hset, rest) →
      count * σ ≤ stream.length ∧ rest = stream.drop (count * σ) := by
  intro count
  induction count with
  | zero =>
    intro stream acc hset rest h
    simp only [readSet, Except.ok.injEq, Prod.mk.injEq] at h
    refine ⟨by omega, ?_⟩
    rw [Nat.zero_mul, List.drop_zero]
    exact h.2.symm
  | succ k ih =>
    intro stream acc hset rest h
    have hsucc : (k + 1) * σ = k * σ + σ := by ring
    by_cases hσ : σ ≤ stream.length
    · simp only [readSet, read_exact, if_pos hσ] at h
      obtain ⟨hle, hr⟩ := ih (stream.drop σ) _ hset rest h
      rw [List.length_drop] at hle
      refine ⟨by omega, ?_⟩
      rw [hr, List.drop_drop]
      have : σ + k * σ = (k + 1) * σ := by ring
      rw [this]
    · simp only [readSet, read_exact, if_neg hσ] at h
      exact absurd h (by simp)

theorem readSets_ok (σ n : Nat) :
    ∀ count stream, count * (n * σ) ≤ stream.length →
      readSets σ n count stream =
        Except.ok
          ((List.range count).map (fun i =>
              setOfRecords (chunkRecords σ n (stream.drop (i * (n * σ))))),
            stream.drop (count * (n * σ))) := by
  intro count
  induction count with
  | zero => intro stream _; simp [readSets]
  | succ k ih =>
    intro stream h
    have hsucc : (k + 1) * (n * σ) = k * (n * σ) + n * σ := by ring
    have h1 : n * σ ≤ stream.length := by omega
    have h2 : k * (n * σ) ≤ (stream.drop (n * σ)).length := by
      rw [List.length_drop]
      omega
    simp only [readSets, readSet_ok σ n stream [] h1,
      ih (stream.drop (n * σ)) h2]
    simp only [Except.ok.injEq, Prod.mk.injEq]
    constructor
    · rw [List.range_succ_eq_map, List.map_cons, List.map_map]
      simp only [List.drop_zero, Nat.zero_mul]
      refine congrArg₂ (fun a b => a :: b) rfl ?_
      refine List.map_congr_left (fun i _ => ?_)
      simp only [Function.comp]
      rw [List.drop_drop]
      have : n * σ + i * (n * σ) = (i + 1) * (n * σ) := by ring
      rw [this]
    · rw [List.drop_drop]
      have : n * σ + k * (n * σ) = (k + 1) * (n * σ) := by ring
      rw [this]

theorem readSets_err (σ n : Nat) :
    ∀ count stream, stream.length < count * (n * σ) →
      readSets σ n count stream = Except.error PsiError.Io := by
  intro count
  induction count with
  | zero => intro stream h; simp at h
  | succ k ih =>
    intro stream h
    have hsucc : (k + 1) * (n * σ) = k * (n * σ) + n * σ := by ring
    by_cases h1 : n * σ ≤ stream.length
    · have hrec : (stream.drop (n * σ)).length < k * (n * σ) := by
        rw [List.length_drop]
        omega
      simp only [readSets, readSet_ok σ n stream [] h1,
        ih (stream.drop (n * σ)) hrec]
    · simp only [readSets, readSet_err σ n stream [] (by omega)]

theorem chunkRecords_length (σ : Nat) :
    ∀ count stream, count * σ ≤ stream.length →
      ∀ r ∈ chunkRecords σ count stream, List.length r = σ := by
  intro count
  induction count with
  | zero => intro stream _ r hr; simp [chunkRecords] at hr
  | succ k ih =>
    intro stream h r hr
    have hsucc : (k + 1) * σ = k * σ + σ := by ring
    have hσ : σ ≤ stream.length := by omega
    simp only [chunkRecords, List.mem_cons] at hr
    cases hr with
    | inl he => rw [he, List.length_take]; omega
    | inr hm =>
      refine ih (stream.drop σ) ?_ r hm
      rw [List.length_drop]
      omega

/-- C5: after the OPRF step, `Receiver::receive` reads exactly 3 bin
streams and then exactly s stash streams, in that order, each consisting of
exactly n σ-byte records read with `read_exact` and inserted into the
corresponding set: the bin sets come from the first 3·n·σ bytes and the
stash sets from the following s·n·σ bytes, every record is exactly σ bytes,
and all of this happens before any membership test (the intersection is
assembled only from the returned sets). -/
theorem receiver_reads_streams (σ n s : Nat) (stream : List Nat)
    (hlen : (3 + s) * (n * σ) ≤ stream.length) :
    readSets σ n 3 stream =
      Except.ok
        ((List.range 3).map (fun i =>
            setOfRecords (chunkRecords σ n (stream.drop (i * (n * σ))))),
          stream.drop (3 * (n * σ)))
    ∧ readSets σ n s (stream.drop (3 * (n * σ))) =
        Except.ok
          ((List.range s).map (fun j =>
              setOfRecords
                (chunkRecords σ n (stream.drop ((3 + j) * (n * σ))))),
            stream.drop ((3 + s) * (n * σ)))
    ∧ (∀ i, i < 3 + s →
        ∀ r ∈ chunkRecords σ n (stream.drop (i * (n * σ))),
          List.length r = σ) := by
  have hexp : (3 + s) * (n * σ) = 3 * (n * σ) + s * (n * σ) := by ring
  have h3 : 3 * (n * σ) ≤ stream.length := by omega
  refine ⟨readSets_ok σ n 3 stream h3, ?_, ?_⟩
  · rw [readSets_ok σ n s (stream.drop (3 * (n * σ)))
      (by rw [List.length_drop]; omega)]
    simp only [Except.ok.injEq, Prod.mk.injEq]
    constructor
    · refine List.map_congr_left (fun j hj => ?_)
      rw [List.drop_drop]
      have : 3 * (n * σ) + j * (n * σ) = (3 + j) * (n * σ) := by ring
      rw [this]
    · rw [List.drop_drop]
      have : 3 * (n * σ) + s * (n * σ) = (3 + s) * (n * σ) := by ring
      rw [this]
  · intro i hi r hr
    refine chunkRecords_length σ n (stream.drop (i * (n * σ))) ?_ r hr
    rw [List.length_drop]
    have hi1 : (i + 1) * (n * σ) ≤ (3 + s) * (n * σ) :=
      Nat.mul_le_mul_right _ (by omega)
    have hsucc : (i + 1) * (n * σ) = i * (n * σ) + n * σ := by ring
    omega

theorem intersectLoop_zip_congr (nbins σ : Nat)
    (hsets ssets : List (List (List Nat))) (Y : List Msg) :
    ∀ (slots : List (Option CuckooItem)) (o1 o2 : List W) (i : Nat),
      o1.length = o2.length →
      (∀ k, k < slots.length → Option.isSome (slots.getD k none) = true →
        o1.getD k [] = o2.getD k []) →
      intersectLoop nbins σ hsets ssets Y i (slots.zip o1) =
        intersectLoop nbins σ hsets ssets Y i (slots.zip o2) := by
  intro slots
  induction slots with
  | nil => intro o1 o2 i _ _; rfl
  | cons s ss ih =>
    intro o1 o2 i hlen hocc
    cases o1 with
    | nil =>
      cases o2 with
      | nil => rfl
      | cons b bs => simp at hlen
    | cons a as =>
      cases o2 with
      | nil => simp at hlen
      | cons b bs =>
        have htail : ∀ k, k < ss.length →
            Option.isSome (ss.getD k none) = true →
            as.getD k [] = bs.getD k [] := by
          intro k hk hs
          have := hocc (k + 1) (by simp only [List.length_cons]; omega)
            (by simpa using hs)
          simpa using this
        have hlen2 : as.length = bs.length := by simpa using hlen
        cases s with
        | none =>
          simp only [List.zip_cons_cons, intersectLoop]
          exact ih as bs (i + 1) hlen2 htail
        | some item =>
          have hhead : a = b := by
            have := hocc 0 (by simp) (by simp)
            simpa using this
          subst hhead
          have hrec := ih as bs (i + 1) hlen2 htail
          obtain ⟨entry, idx, hxi⟩ := item
          cases hxi with
          | some hidx =>
            simp only [List.zip_cons_cons, intersectLoop]
            by_cases hmem : a.take σ ∈ hsets.getD hidx []
            · rw [if_pos hmem, if_pos hmem]
              exact congrArg (fun l => Y.getD idx [] :: l) hrec
            · rw [if_neg hmem, if_neg hmem]
              exact hrec
          | none =>
            simp only [List.zip_cons_cons, intersectLoop]
            by_cases hmem : a.take σ ∈ ssets.getD (i - nbins) []
            · rw [if_pos hmem, if_pos hmem]
              exact congrArg (fun l => Y.getD idx [] :: l) hrec
            · rw [if_neg hmem, if_neg hmem]
              exact hrec

/-- C4: `Receiver::receive` builds an OPRF query vector of length exactly
m + s in cuckoo slot order: a slot occupied with hash_index `some i`
contributes `entry ^ h_i`, a stash-resident slot (hash_index `none`)
contributes `entry` unchanged, and an empty slot contributes the fixed
all-zero default token, whose OPRF output is never used for a membership
test: the post-OPRF result of the receiver is unchanged by altering the outputs
at unoccupied slots. -/
theorem receiver_query_vector (tbl : CuckooTable)
    (hlen : tbl.slots.length = tbl.nbins + tbl.stashsize)
    (hhx : ∀ o ∈ tbl.slots, ∀ it : CuckooItem, o = some it →
      ∀ i, it.hash_index = some i → i < 3) :
    (oprfQueries tbl).length = tbl.nbins + tbl.stashsize
    ∧ (∀ k, k < tbl.slots.length →
        (oprfQueries tbl).getD k 0 =
          match tbl.slots.getD k none with
          | some item =>
            match item.hash_index with
            | some i => item.entry ^^^ hidxTok i
            | none => item.entry
          | none => 0)
    ∧ (∀ outputs1 outputs2 σ n Y stream,
        List.length outputs1 = List.length outputs2 →
        (∀ k, k < tbl.slots.length →
          Option.isSome (tbl.slots.getD k none) = true →
          outputs1.getD k [] = outputs2.getD k []) →
        receiverPostOprf tbl outputs1 σ n Y stream =
          receiverPostOprf tbl outputs2 σ n Y stream) := by
  refine ⟨by simp [oprfQueries, hlen], ?_, ?_⟩
  · intro k hk
    have hk2 : k < (oprfQueries tbl).length := by
      simpa [oprfQueries] using hk
    rw [List.getD_eq_getElem _ _ hk2, List.getD_eq_getElem _ _ hk]
    simp only [oprfQueries, List.getElem_map]
    cases hslot : tbl.slots[k] with
    | none => rfl
    | some item =>
      obtain ⟨entry, idx, hxio⟩ := item
      cases hxio with
      | none => rfl
      | some i =>
        have hmem : some (⟨entry, idx, some i⟩ : CuckooItem) ∈ tbl.slots :=
          hslot ▸ List.getElem_mem hk
        have hi3 : i < 3 := hhx _ hmem _ rfl i rfl
        have hind : hindices.getD i 0 = hidxTok i := by
          interval_cases i <;> rfl
        show entry ^^^ hindices.getD i 0 = entry ^^^ hidxTok i
        rw [hind]
  · intro outputs1 outputs2 σ n Y stream hlen12 hocc
    unfold receiverPostOprf
    cases h1 : readSets σ n 3 stream with
    | error e => rfl
    | ok p1 =>
      show Except.bind (readSets σ n tbl.stashsize p1.2)
          (fun sr => Except.ok (intersectLoop tbl.nbins σ p1.1 sr.1 Y 0
            (tbl.slots.zip outputs1))) =
        Except.bind (readSets σ n tbl.stashsize p1.2)
          (fun sr => Except.ok (intersectLoop tbl.nbins σ p1.1 sr.1 Y 0
            (tbl.slots.zip outputs2)))
      cases readSets σ n tbl.stashsize p1.2 with
      | error e => rfl
      | ok p2 =>
        show Except.ok (intersectLoop tbl.nbins σ p1.1 p2.1 Y 0
            (tbl.slots.zip outputs1)) =
          Except.ok (intersectLoop tbl.nbins σ p1.1 p2.1 Y 0
            (tbl.slots.zip outputs2))
        exact congrArg Except.ok
          (intersectLoop_zip_congr tbl.nbins σ p1.1 p2.1 Y tbl.slots
            outputs1 outputs2 0 hlen12 hocc)

/-- C6: for every occupied cuckoo slot whose membership test succeeds, the
intersection loop of `Receiver::receive` emits the original input
`Y[item.input_index]`, and the returned vector is ordered by the positional
cuckoo iteration (the enumeration of the slots, bins then stash), not by
the original order of Y. -/
theorem receiver_output_in_cuckoo_order (nbins σ : Nat)
    (hsets ssets : List (List (List Nat))) (Y : List Msg) (i0 : Nat)
    (pairs : List (Option CuckooItem × W)) :
    intersectLoop nbins σ hsets ssets Y i0 pairs =
      (List.enumFrom i0 pairs).filterMap (fun p =>
        match p.2.1 with
        | some item =>
          match item.hash_index with
          | some hidx =>
            if p.2.2.take σ ∈ hsets.getD hidx [] then
              some (Y.getD item.input_index []) else none
          | none =>
            if p.2.2.take σ ∈ ssets.getD (p.1 - nbins) [] then
              some (Y.getD item.input_index []) else none
        | none => none) := by
  induction pairs generalizing i0 with
  | nil => rfl
  | cons pr rest ih =>
    obtain ⟨optItem, output⟩ := pr
    cases optItem with
    | none =>
      simp only [intersectLoop, List.enumFrom, List.filterMap_cons]
      exact ih (i0 + 1)
    | some item =>
      obtain ⟨entry, idx, hxi⟩ := item
      cases hxi with
      | some hidx =>
        simp only [intersectLoop, List.enumFrom, List.filterMap_cons]
        by_cases hmem : output.take σ ∈ hsets.getD hidx []
        · rw [if_pos hmem, if_pos hmem]
          exact congrArg _ (ih (i0 + 1))
        · rw [if_neg hmem, if_neg hmem]
          exact ih (i0 + 1)
      | none =>
        simp only [intersectLoop, List.enumFrom, List.filterMap_cons]
        by_cases hmem : output.take σ ∈ ssets.getD (i0 - nbins) []
        · rw [if_pos hmem, if_pos hmem]
          exact congrArg _ (ih (i0 + 1))
        · rw [if_neg hmem, if_neg hmem]
          exact ih (i0 + 1)

/-- C7: the only successful outcome of `Receiver::receive` carries the
complete result: success implies the coin toss, the cuckoo construction,
the mask sizing, the OPRF, and every one of the (3 + s) * n wire reads
succeeded, and the returned vector is exactly the intersection assembled
from the fully-read sets; any failing step propagates its error and nothing
partial is emitted. -/
theorem receiver_atomic_output (coin : Except PsiError Token)
    (mkTable : Token → Except PsiError CuckooTable)
    (oprf : List Token → Except PsiError (List W))
    (Y : List Msg) (stream : List Nat) (out : List Msg)
    (h : receiverReceive coin mkTable oprf Y stream = Except.ok out) :
    ∃ key tbl σ outputs hsets ssets rest rest2,
      coin = Except.ok key
      ∧ mkTable key = Except.ok tbl
      ∧ compute_masksize Y.length = Except.ok σ
      ∧ oprf (oprfQueries tbl) = Except.ok outputs
      ∧ readSets σ Y.length 3 stream = Except.ok (hsets, rest)
      ∧ readSets σ Y.length tbl.stashsize rest = Except.ok (ssets, rest2)
      ∧ out = intersectLoop tbl.nbins σ hsets ssets Y 0
          (tbl.slots.zip outputs) := by
  unfold receiverReceive at h
  obtain ⟨key, hc, h⟩ := except_bind_ok_inv h
  obtain ⟨tbl, hm, h⟩ := except_bind_ok_inv h
  obtain ⟨σ, hσ2, h⟩ := except_bind_ok_inv h
  obtain ⟨outputs, ho, h⟩ := except_bind_ok_inv h
  unfold receiverPostOprf at h
  obtain ⟨p1, h1, h⟩ := except_bind_ok_inv h
  obtain ⟨p2, h2, h⟩ := except_bind_ok_inv h
  have hfin : Except.ok (intersectLoop tbl.nbins σ p1.1 p2.1 Y 0
      (tbl.slots.zip outputs)) = Except.ok out := h
  injection hfin with hout
  exact ⟨key, tbl, σ, outputs, p1.1, p2.1, p1.2, p2.2, hc, hm, hσ2, ho,
    by rw [h1], by rw [h2], hout.symm⟩

theorem intersectLoop_mem (nbins σ : Nat)
    (hsets ssets : List (List (List Nat))) (Y : List Msg) :
    ∀ pairs i msg, msg ∈ intersectLoop nbins σ hsets ssets Y i pairs →
      ∃ p ∈ pairs, ∃ it : CuckooItem, p.1 = some it ∧
        msg = Y.getD it.input_index [] := by
  intro pairs
  induction pairs with
  | nil => intro i msg hm; cases hm
  | cons pr rest ih =>
    intro i msg hm
    obtain ⟨optItem, output⟩ := pr
    cases optItem with
    | none =>
      simp only [intersectLoop] at hm
      obtain ⟨p, hp, it, h1, h2⟩ := ih (i + 1) msg hm
      exact ⟨p, List.mem_cons_of_mem _ hp, it, h1, h2⟩
    | some item =>
      obtain ⟨entry, idx, hxi⟩ := item
      cases hxi with
      | some hidx =>
        simp only [intersectLoop] at hm
        by_cases hmem : output.take σ ∈ hsets.getD hidx []
        · rw [if_pos hmem] at hm
          cases List.mem_cons.mp hm with
          | inl he =>
            exact ⟨(some ⟨entry, idx, some hidx⟩, output),
              List.mem_cons_self _ _, ⟨entry, idx, some hidx⟩, rfl, he⟩
          | inr hr =>
            obtain ⟨p, hp, it, h1, h2⟩ := ih (i + 1) msg hr
            exact ⟨p, List.mem_cons_of_mem _ hp, it, h1, h2⟩
        · rw [if_neg hmem] at hm
          obtain ⟨p, hp, it, h1, h2⟩ := ih (i + 1) msg hm
          exact ⟨p, List.mem_cons_of_mem _ hp, it, h1, h2⟩
      | none =>
        simp only [intersectLoop] at hm
        by_cases hmem : output.take σ ∈ ssets.getD (i - nbins) []
        · rw [if_pos hmem] at hm
          cases List.mem_cons.mp hm with
          | inl he =>
            exact ⟨(some ⟨entry, idx, none⟩, output),
              List.mem_cons_self _ _, ⟨entry, idx, none⟩, rfl, he⟩
          | inr hr =>
            obtain ⟨p, hp, it, h1, h2⟩ := ih (i + 1) msg hr
            exact ⟨p, List.mem_cons_of_mem _ hp, it, h1, h2⟩
        · rw [if_neg hmem] at hm
          obtain ⟨p, hp, it, h1, h2⟩ := ih (i + 1) msg hm
          exact ⟨p, List.mem_cons_of_mem _ hp, it, h1, h2⟩

theorem intersectLoop_length (nbins σ : Nat)
    (hsets ssets : List (List (List Nat))) (Y : List Msg) :
    ∀ pairs i, (intersectLoop nbins σ hsets ssets Y i pairs).length ≤
      pairs.countP (fun p => Option.isSome p.1) := by
  intro pairs
  induction pairs with
  | nil => intro i; simp [intersectLoop]
  | cons pr rest ih =>
    intro i
    obtain ⟨optItem, output⟩ := pr
    cases optItem with
    | none =>
      rw [List.countP_cons_of_neg _ _ (by simp)]
      simp only [intersectLoop]
      exact ih (i + 1)
    | some item =>
      obtain ⟨entry, idx, hxi⟩ := item
      have hrec := ih (i + 1)
      cases hxi with
      | some hidx =>
        rw [List.countP_cons_of_pos _ _ (by simp)]
        simp only [intersectLoop]
        by_cases hmem : output.take σ ∈ hsets.getD hidx []
        · rw [if_pos hmem]
          simp only [List.length_cons]
          omega
        · rw [if_neg hmem]
          omega
      | none =>
        rw [List.countP_cons_of_pos _ _ (by simp)]
        simp only [intersectLoop]
        by_cases hmem : output.take σ ∈ ssets.getD (i - nbins) []
        · rw [if_pos hmem]
          simp only [List.length_cons]
          omega
        · rw [if_neg hmem]
          omega

theorem countP_zip_fst_le {α β : Type} (p : α → Bool) :
    ∀ (l : List α) (m : List β),
      (l.zip m).countP (fun q => p q.1) ≤ l.countP p := by
  intro l
  induction l with
  | nil => intro m; simp
  | cons a as ih =>
    intro m
    cases m with
    | nil => simp [List.countP_cons]
    | cons b bs =>
      simp only [List.zip_cons_cons, List.countP_cons]
      have := ih bs
      by_cases hp : p a = true
      · simp only [hp]
        omega
      · simp only [eq_false_of_ne_true hp]
        omega

/-- C9: unconditionally — for arbitrary bytes arriving from the peer and
arbitrary OPRF outputs — every element of a successfully returned
intersection is an element of the own input list Y of the receiver, each
occupied cuckoo slot contributes at most one element, and the output length
never exceeds the number of occupied slots, which equals the number of
inputs. -/
theorem receiver_output_within_inputs (tbl : CuckooTable) (outputs : List W)
    (σ n : Nat) (Y : List Msg) (stream : List Nat) (out : List Msg)
    (hwf : tbl.WF Y.length)
    (hok : receiverPostOprf tbl outputs σ n Y stream = Except.ok out) :
    (∀ msg ∈ out, msg ∈ Y)
    ∧ out.length ≤ tbl.slots.countP (fun o => o.isSome)
    ∧ out.length ≤ Y.length := by
  obtain ⟨_, hidxlt, hcount, _⟩ := hwf
  unfold receiverPostOprf at hok
  obtain ⟨p1, h1, hok⟩ := except_bind_ok_inv hok
  obtain ⟨p2, h2, hok⟩ := except_bind_ok_inv hok
  have hfin : Except.ok (intersectLoop tbl.nbins σ p1.1 p2.1 Y 0
      (tbl.slots.zip outputs)) = Except.ok out := hok
  injection hfin with hout
  have hsub : out = intersectLoop tbl.nbins σ p1.1 p2.1 Y 0
      (tbl.slots.zip outputs) := hout.symm
  subst hsub
  refine ⟨?_, ?_, ?_⟩
  · intro msg hm
    obtain ⟨p, hp, it, hp1, hmsg⟩ :=
      intersectLoop_mem tbl.nbins σ p1.1 p2.1 Y _ 0 msg hm
    obtain ⟨a, b⟩ := p
    have hmem : a ∈ tbl.slots := (List.of_mem_zip hp).1
    have hsome : some it ∈ tbl.slots := by
      rw [← hp1]
      exact hmem
    have hlt : it.input_index < Y.length := hidxlt _ hsome it rfl
    rw [hmsg, List.getD_eq_getElem _ _ hlt]
    exact List.getElem_mem hlt
  · exact le_trans
      (intersectLoop_length tbl.nbins σ p1.1 p2.1 Y _ 0)
      (countP_zip_fst_le _ tbl.slots outputs)
  · refine le_trans (le_trans
      (intersectLoop_length tbl.nbins σ p1.1 p2.1 Y _ 0)
      (countP_zip_fst_le _ tbl.slots outputs)) ?_
    rw [hcount]

/-- C10: each side derives its mask width solely from its own input count
(the embedding of `Sender::send` computes it from the sender token vector,
`receiverReceive` from `Y`, and no wire message carries it); consequently,
whenever 3·nx·σ(nx) differs from 3·ny·σ(ny), the number of bytes one sender
bin stream writes differs from the number of bytes one receiver bin-stream
read consumes. -/
theorem masksize_local_mismatch (encode : Token → W) (seeds : List W)
    (nbinsX i : Nat) (perm : List Token) (nx ny σx σy : Nat)
    (hx : compute_masksize nx = Except.ok σx)
    (hy : compute_masksize ny = Except.ok σy)
    (hpl : perm.length = nx)
    (hσ : σx ≤ 64) (hnb : 0 < nbinsX)
    (henc : ∀ x, (encode x).length = 64)
    (hseeds : ∀ w ∈ seeds, List.length w = 64)
    (hslen : nbinsX ≤ seeds.length)
    (hne : 3 * nx * σx ≠ 3 * ny * σy) :
    ∀ stream hset rest, readSet σy ny stream [] = Except.ok (hset, rest) →
      payloadBytes (binRound encode seeds σx nbinsX i perm) ≠
        stream.length - rest.length := by
  intro stream hset rest hr
  obtain ⟨hle, hrest⟩ := readSet_consumed σy ny stream [] hset rest hr
  have hpay : payloadBytes (binRound encode seeds σx nbinsX i perm) =
      nx * σx := by
    rw [binRound, payloadBytes_append,
      payloadBytes_map_bytes _ _ σx (fun x _ =>
        binRecord_length encode seeds σx nbinsX i x hσ hnb henc hseeds hslen),
      hpl]
    simp [payloadBytes]
  have h3x : 3 * nx * σx = 3 * (nx * σx) := by ring
  have h3y : 3 * ny * σy = 3 * (ny * σy) := by ring
  rw [hpay, hrest, List.length_drop]
  omega

/-- A concrete OPRF encoding for witnesses: the token value mod 256 repeated
over a 64-byte block. -/
def cEnc : Token → W := fun t => List.replicate 64 (t % 256)

/-- A concrete seed vector for one bin and no stash slot. -/
def cSeeds : List W := [List.replicate 64 1]

/-- A concrete seed vector for one bin and one stash slot. -/
def cSeeds2 : List W := [List.replicate 64 1, List.replicate 64 2]

/-- The identity shuffle oracle on token vectors. -/
def cShufT : Nat → List Token → List Token := fun _ l => l

/-- The identity shuffle oracle on encoded vectors. -/
def cShufW : Nat → List W → List W := fun _ l => l

/-- A concrete one-bin cuckoo table holding a single item. -/
def cTbl : CuckooTable :=
  CuckooTable.mk 1 0 [some (CuckooItem.mk 0 0 (some 0))]

theorem cEnc_len : ∀ x, (cEnc x).length = 64 := fun _ => by simp [cEnc]

theorem cSeeds_len : ∀ w ∈ cSeeds, List.length w = 64 := by decide

theorem cSeeds2_len : ∀ w ∈ cSeeds2, List.length w = 64 := by decide

theorem cTbl_WF : cTbl.WF 1 := by decide

/-- Witness for the bin-phase claim at a concrete instantiation. -/
theorem sender_bin_phase_matches_spec_witness :
    (∃ rest,
      senderSend cEnc cSeeds 1 1 0 cShufT cShufW [5] =
        specBinStream cEnc cSeeds 1 1 0 (cShufT 0 [5])
          ++ specBinStream cEnc cSeeds 1 1 1 (cShufT 1 (cShufT 0 [5]))
          ++ specBinStream cEnc cSeeds 1 1 2
              (cShufT 2 (cShufT 1 (cShufT 0 [5])))
          ++ rest)
    ∧ ∀ i x, i < 3 →
        ((xorBytes (cEnc (x ^^^ hidxTok i))
          (cSeeds.getD (binOf x i 1) [])).take 1).length = 1 :=
  sender_bin_phase_matches_spec cEnc cSeeds 1 1 0 cShufT cShufW [5]
    (by omega) (by omega) cEnc_len cSeeds_len rfl

/-- Witness for the stash-phase claim at a concrete instantiation. -/
theorem sender_stash_phase_matches_spec_witness :
    (0 < 1 →
      senderSend cEnc cSeeds2 1 1 1 cShufT cShufW [5] =
        binRound cEnc cSeeds2 1 1 0 (cShufT 0 [5])
          ++ binRound cEnc cSeeds2 1 1 1 (cShufT 1 (cShufT 0 [5]))
          ++ binRound cEnc cSeeds2 1 1 2
              (cShufT 2 (cShufT 1 (cShufT 0 [5])))
          ++ (specStashPhase cSeeds2 1 1 cShufW 0 1
                ((cShufT 2 (cShufT 1 (cShufT 0 [5]))).map (fun x => cEnc x))
              ++ [WireEvent.flush]))
    ∧ (1 = 0 →
        senderSend cEnc cSeeds2 1 1 1 cShufT cShufW [5] =
          binRound cEnc cSeeds2 1 1 0 (cShufT 0 [5])
            ++ binRound cEnc cSeeds2 1 1 1 (cShufT 1 (cShufT 0 [5]))
            ++ binRound cEnc cSeeds2 1 1 2
                (cShufT 2 (cShufT 1 (cShufT 0 [5])))
            ++ [])
    ∧ (∀ j, j < 1 → ∀ e : W, List.length e = 64 →
        ((xorBytes e (cSeeds2.getD (1 + j) [])).take 1).length = 1) :=
  sender_stash_phase_matches_spec cEnc cSeeds2 1 1 1 cShufT cShufW [5]
    (by omega) cEnc_len cSeeds2_len rfl (fun _ _ _ h => h)

/-- Witness for the payload byte-count claim at a concrete instantiation. -/
theorem sender_payload_byte_count_witness :
    payloadBytes (senderSend cEnc cSeeds2 5 1 1 cShufT cShufW [5]) =
      3 * ([5] : List Token).length * 5 + 1 * ([5] : List Token).length * 5 :=
  sender_payload_byte_count cEnc cSeeds2 5 1 1 cShufT cShufW [5]
    rfl (by omega) (by omega) cEnc_len cSeeds2_len rfl
    (fun _ l => List.Perm.refl l) (fun _ l => List.Perm.refl l)

/-- Witness for the query-vector claim at a concrete instantiation. -/
theorem receiver_query_vector_witness :
    (oprfQueries cTbl).length = cTbl.nbins + cTbl.stashsize
    ∧ (∀ k, k < cTbl.slots.length →
        (oprfQueries cTbl).getD k 0 =
          match cTbl.slots.getD k none with
          | some item =>
            match item.hash_index with
            | some i => item.entry ^^^ hidxTok i
            | none => item.entry
          | none => 0)
    ∧ (∀ outputs1 outputs2 σ n Y stream,
        List.length outputs1 = List.length outputs2 →
        (∀ k, k < cTbl.slots.length →
          Option.isSome (cTbl.slots.getD k none) = true →
          outputs1.getD k [] = outputs2.getD k []) →
        receiverPostOprf cTbl outputs1 σ n Y stream =
          receiverPostOprf cTbl outputs2 σ n Y stream) :=
  receiver_query_vector cTbl rfl (by decide)

/-- Witness for the stream-layout claim at a concrete instantiation. -/
theorem receiver_reads_streams_witness :
    readSets 1 1 3 [1, 2, 3, 4, 5] =
      Except.ok
        ((List.range 3).map (fun i =>
            setOfRecords (chunkRecords 1 1
              (List.drop (i * (1 * 1)) [1, 2, 3, 4, 5]))),
          List.drop (3 * (1 * 1)) [1, 2, 3, 4, 5])
    ∧ readSets 1 1 1 (List.drop (3 * (1 * 1)) [1, 2, 3, 4, 5]) =
        Except.ok
          ((List.range 1).map (fun j =>
              setOfRecords (chunkRecords 1 1
                (List.drop ((3 + j) * (1 * 1)) [1, 2, 3, 4, 5]))),
            List.drop ((3 + 1) * (1 * 1)) [1, 2, 3, 4, 5])
    ∧ (∀ i, i < 3 + 1 →
        ∀ r ∈ chunkRecords 1 1 (List.drop (i * (1 * 1)) [1, 2, 3, 4, 5]),
          List.length r = 1) :=
  receiver_reads_streams 1 1 1 [1, 2, 3, 4, 5] (by decide)

/-- Witness for the atomic-output claim: a complete successful concrete run. -/
theorem receiver_atomic_output_witness :
    ∃ key tbl σ outputs hsets ssets rest rest2,
      (Except.ok 0 : Except PsiError Token) = Except.ok key
      ∧ (Except.ok cTbl : Except PsiError CuckooTable) = Except.ok tbl
      ∧ compute_masksize ([[7]] : List Msg).length = Except.ok σ
      ∧ (Except.ok [List.replicate 64 0] : Except PsiError (List W)) =
          Except.ok outputs
      ∧ readSets σ ([[7]] : List Msg).length 3 (List.replicate 15 0) =
          Except.ok (hsets, rest)
      ∧ readSets σ ([[7]] : List Msg).length tbl.stashsize rest =
          Except.ok (ssets, rest2)
      ∧ ([[7]] : List Msg) = intersectLoop tbl.nbins σ hsets ssets [[7]] 0
          (tbl.slots.zip outputs) :=
  receiver_atomic_output (Except.ok 0) (fun _ => Except.ok cTbl)
    (fun _ => Except.ok [List.replicate 64 0]) [[7]] (List.replicate 15 0)
    [[7]] rfl

/-- Witness for the output-containment claim at a concrete instantiation. -/
theorem receiver_output_within_inputs_witness :
    (∀ msg ∈ ([[7]] : List Msg), msg ∈ ([[7]] : List Msg))
    ∧ ([[7]] : List Msg).length ≤ cTbl.slots.countP (fun o => o.isSome)
    ∧ ([[7]] : List Msg).length ≤ ([[7]] : List Msg).length :=
  receiver_output_within_inputs cTbl [List.replicate 64 0] 5 1 [[7]]
    (List.replicate 15 0) [[7]] cTbl_WF rfl

/-- Witness for the mask-width mismatch claim at a concrete instantiation:
one sender bin stream of 1 record of 5 bytes against one receiver bin-stream
read of 2 records of 6 bytes. -/
theorem masksize_local_mismatch_witness :
    payloadBytes (binRound cEnc cSeeds 5 1 0 [5]) ≠
      (List.replicate 12 0 : List Nat).length - ([] : List Nat).length :=
  masksize_local_mismatch cEnc cSeeds 1 0 [5] 1 2 5 6 rfl rfl rfl
    (by omega) (by omega) cEnc_len cSeeds_len (by decide) (by omega)
    (List.replicate 12 0) [List.replicate 6 0] [] rfl

end Psz
